import Mathlib

/-!
Verification of the Redis-backed Bloom filter in `src/bloomfilter.py`.

The Python module has three operations:
* `initialize_bloom_filter(redis_client, filter_name, expected_elements, false_positive_rate)`
* `add_to_bloom_filter(redis_client, filter_name, item)`
* `check_bloom_filter(redis_client, filter_name, item)`

We shallowly embed the module. The Redis client is modelled as an explicit
state value (`RedisState`): a family of field-to-value hashes (the
`"<name>:metadata"` channel, as returned by `HGETALL`) and a family of byte
buffers viewed as bit lists (the `"<name>:bits"` channel driven by `SET`,
`SETBIT`, `GETBIT`).  Python exceptions become `Except PyError`.  The external
hash primitive `mmh3.hash` (a signed 32-bit hash, an external library) is a
parameter `hash : String → ℕ → ℤ`; all the properties below hold for every
such function.  Python's `str(item)` key normalisation is modelled by taking
keys to already be their canonical string form.  Error messages carried by the
Python exceptions are elided: only the exception class matters here.
-/

/-- A key of the dict returned by `redis_client.hgetall`: with
`decode_responses=False` the keys are `bytes` (`b'size'`), with
`decode_responses=True` they are `str` (`'size'`).  Both byte strings and text
strings are carried as Lean `String`s. -/
inductive RKey
  | kbytes : String → RKey
  | kstr : String → RKey
deriving DecidableEq

/-- A value of the metadata dict: `bytes` or `str`, each carrying its text. -/
inductive RVal
  | vbytes : String → RVal
  | vstr : String → RVal
deriving DecidableEq

/-- Python exception classes raised by the module: `ValueError` (filter not
found) and `KeyError` (missing dict key in `metadata[b'size']`). -/
inductive PyError
  | valueError : PyError
  | keyError : PyError
deriving DecidableEq

/-- The observable state of the Redis store.  `hashes` gives, for each Redis
key, the field map `HGETALL` would return (`[]` when the key is absent — Redis
has no empty hashes).  `strings` gives, for each Redis key, the stored byte
buffer as a list of bits (`[]` when absent; `GETBIT` past the end reads 0). -/
@[ext]
structure RedisState where
  hashes : String → List (RKey × RVal)
  strings : String → List Bool

/-- The Redis key of the metadata channel: `f"{filter_name}:metadata"`. -/
def metaKeyOf (filter_name : String) : String := filter_name ++ ":metadata"

/-- The Redis key of the bit channel: `f"{filter_name}:bits"`. -/
def bitsKeyOf (filter_name : String) : String := filter_name ++ ":bits"

/-- Redis's zero extension of a byte buffer so that bit `off` is addressable:
when `off` is past the end the buffer grows with zero bytes to `off / 8 + 1`
bytes (the byte holding `off`). -/
def zeroExtend (buf : List Bool) (off : ℕ) : List Bool :=
  if off < buf.length then buf
  else buf ++ List.replicate (8 * (off / 8 + 1) - buf.length) false

/-- Redis `SETBIT key off 1` on a byte buffer viewed as bits: zero-extend so
bit `off` exists, then set it. -/
def setbitL (buf : List Bool) (off : ℕ) : List Bool :=
  (zeroExtend buf off).set off true

/-- Redis `GETBIT key off`: bit `off` of the buffer, `false` past the end or
when the key is absent. -/
def getbitL (buf : List Bool) (off : ℕ) : Bool := buf.getD off false

/-- The call `redis_client.setbit(key, off, 1)` as a state transformer. -/
def rsetbit (st : RedisState) (key : String) (off : ℕ) : RedisState :=
  { st with strings := fun s => if s = key then setbitL (st.strings s) off else st.strings s }

/-- The call `redis_client.getbit(key, off)`. -/
def rgetbit (st : RedisState) (key : String) (off : ℕ) : Bool :=
  getbitL (st.strings key) off

/-- Decimal digit accumulator: consume digits, `none` when a non-digit occurs
or no digit was consumed at all. -/
def digitsVal : List Char → Option ℕ → Option ℕ
  | [], acc => acc
  | c :: rest, acc =>
    if c.isDigit then digitsVal rest (some (10 * acc.getD 0 + (c.toNat - 48)))
    else none

/-- Python `int(s)` on a canonical decimal byte/text string: an optional minus
sign followed by digits (the only shape this module ever stores). -/
def pyIntParse (s : String) : Option ℤ :=
  match s.data with
  | '-' :: rest => (digitsVal rest none).map (fun n => -(n : ℤ))
  | cs => (digitsVal cs none).map (fun n => (n : ℤ))

deriving instance DecidableEq for Except

/-- Python `int(s)` as the module uses it on metadata values, raising
`ValueError` when the text does not parse as an integer. -/
def parseInt (s : String) : Except PyError ℤ :=
  match pyIntParse s with
  | some z => Except.ok z
  | none => Except.error PyError.valueError

/-- The duck-typed metadata field read of the source, for field name `f`:
`int(metadata[b'f']) if isinstance(metadata[b'f'], bytes) else int(metadata['f'])`.
Looking up `metadata[b'f']` raises `KeyError` when the `bytes` key is absent
(evaluated first, inside `isinstance`); when present with a `bytes` value it is
parsed; when present with a non-`bytes` value the `else` branch looks up the
`str` key `'f'` instead. -/
def metaField (md : List (RKey × RVal)) (f : String) : Except PyError ℤ :=
  match md.lookup (RKey.kbytes f) with
  | none => Except.error PyError.keyError
  | some (RVal.vbytes s) => parseInt s
  | some (RVal.vstr _) =>
    match md.lookup (RKey.kstr f) with
    | none => Except.error PyError.keyError
    | some (RVal.vbytes s) => parseInt s
    | some (RVal.vstr s) => parseInt s

/-- One bit position of the multi-hash protocol:
`mmh3.hash(item_str, i) % m`, with Python `%` (sign of the divisor, so the
Euclidean `Int.emod` for a positive `m`). -/
def bit_offset (hash : String → ℕ → ℤ) (item : String) (i : ℕ) (m : ℤ) : ℤ :=
  hash item i % m

/-- The `k` bit positions `mmh3.hash(item_str, i) % m` for `i` in `range(k)`,
as natural-number offsets handed to `SETBIT`/`GETBIT`. -/
def offsetsOf (hash : String → ℕ → ℤ) (item : String) (k : ℕ) (m : ℤ) : List ℕ :=
  (List.range k).map fun i => (bit_offset hash item i m).toNat

/-- The insert loop of `add_to_bloom_filter`: set each offset's bit in turn. -/
def insert_bits (st : RedisState) (key : String) (offs : List ℕ) : RedisState :=
  offs.foldl (fun s off => rsetbit s key off) st

/-- The operation `add_to_bloom_filter(redis_client, filter_name, item)`: load the metadata
hash; raise `ValueError` when it is empty (filter not found); read the `size`
and `hash_functions` fields via the duck-typed access; then for each
`i in range(k)` set bit `mmh3.hash(item_str, i) % m` and return `True`. -/
def add_to_bloom_filter (hash : String → ℕ → ℤ) (st : RedisState)
    (filter_name item : String) : Except PyError (Bool × RedisState) :=
  let metadata := st.hashes (metaKeyOf filter_name)
  if metadata = [] then Except.error PyError.valueError
  else
    match metaField metadata "size" with
    | Except.error e => Except.error e
    | Except.ok m =>
      match metaField metadata "hash_functions" with
      | Except.error e => Except.error e
      | Except.ok k =>
        Except.ok (true, insert_bits st (bitsKeyOf filter_name) (offsetsOf hash item k.toNat m))

/-- The query loop of `check_bloom_filter`: read each offset's bit in turn,
returning `False` at the first unset bit, `True` when all are set. -/
def check_loop (st : RedisState) (key : String) : List ℕ → Bool
  | [] => true
  | o :: rest => if rgetbit st key o then check_loop st key rest else false

/-- The trace of `GETBIT` reads the query loop performs: it stops at the first
unset bit, so later offsets are never read. -/
def check_reads (st : RedisState) (key : String) : List ℕ → List ℕ
  | [] => []
  | o :: rest => if rgetbit st key o then o :: check_reads st key rest else [o]

/-- The operation `check_bloom_filter(redis_client, filter_name, item)`: load the metadata
hash; raise `ValueError` when it is empty; read `size` and `hash_functions`;
then test the `k` bits, returning `False` on the first unset bit and `True`
when all are set. -/
def check_bloom_filter (hash : String → ℕ → ℤ) (st : RedisState)
    (filter_name item : String) : Except PyError Bool :=
  let metadata := st.hashes (metaKeyOf filter_name)
  if metadata = [] then Except.error PyError.valueError
  else
    match metaField metadata "size" with
    | Except.error e => Except.error e
    | Except.ok m =>
      match metaField metadata "hash_functions" with
      | Except.error e => Except.error e
      | Except.ok k =>
        Except.ok (check_loop st (bitsKeyOf filter_name) (offsetsOf hash item k.toNat m))

/-- A filter is readable in state `st` under `name` with parameters `m`, `k`
when its metadata hash is present and the two duck-typed field reads succeed
with those values. -/
def MetaOK (st : RedisState) (name : String) (m k : ℤ) : Prop :=
  st.hashes (metaKeyOf name) ≠ [] ∧
  metaField (st.hashes (metaKeyOf name)) "size" = Except.ok m ∧
  metaField (st.hashes (metaKeyOf name)) "hash_functions" = Except.ok k

instance (st : RedisState) (name : String) (m k : ℤ) : Decidable (MetaOK st name m k) := by
  unfold MetaOK
  infer_instance

/-- A sequence of inserts of `keys` into filter `name`, threading the state
through the successful calls (on this path every call succeeds). -/
def add_many (hash : String → ℕ → ℤ) (st : RedisState) (name : String)
    (keys : List String) : RedisState :=
  keys.foldl
    (fun s y =>
      match add_to_bloom_filter hash s name y with
      | Except.ok q => q.2
      | Except.error _ => s) st

/-- Python `int(x)` on a float: truncation toward zero, so floor for
non-negative `x` and ceiling for negative `x`.  The source's float arithmetic
is modelled over the exact reals. -/
noncomputable def pyInt (x : ℝ) : ℤ := if 0 ≤ x then ⌊x⌋ else ⌈x⌉

/-- The raw bit-array size of `initialize_bloom_filter`, before the floor:
`m = int(-(expected_elements * math.log(false_positive_rate)) / (math.log(2) ** 2))`. -/
noncomputable def m_raw (expected_elements : ℕ) (false_positive_rate : ℝ) : ℤ :=
  pyInt (-((expected_elements : ℝ) * Real.log false_positive_rate) / (Real.log 2) ^ 2)

/-- The raw hash-function count of `initialize_bloom_filter`, before the
floor: `k = int((m / expected_elements) * math.log(2))`, where `m` is the
already-truncated raw size. -/
noncomputable def k_raw (expected_elements : ℕ) (false_positive_rate : ℝ) : ℤ :=
  pyInt (((m_raw expected_elements false_positive_rate : ℝ) / (expected_elements : ℝ)) * Real.log 2)

/-- The final hash-function count: `k = max(1, k)`. -/
noncomputable def bloom_k (expected_elements : ℕ) (false_positive_rate : ℝ) : ℤ :=
  max 1 (k_raw expected_elements false_positive_rate)

/-- The final bit-array size: `m = max(100, m)`. -/
noncomputable def bloom_m (expected_elements : ℕ) (false_positive_rate : ℝ) : ℤ :=
  max 100 (m_raw expected_elements false_positive_rate)

/-- Redis `HSET` of one field: replace the value in place when the field
exists, append the pair otherwise. -/
def upsert : List (RKey × RVal) → RKey → RVal → List (RKey × RVal)
  | [], f, v => [(f, v)]
  | (g, w) :: rest, f, v =>
    if g = f then (f, v) :: rest else (g, w) :: upsert rest f v

/-- The call `redis_client.hset(key, mapping=...)`: upsert each field of the mapping
in order.  The redis-py client encodes the `str` field names of the Python
dict to `bytes`, and the `int`/`float` values to their decimal byte strings. -/
def hsetMapping (md : List (RKey × RVal)) (pairs : List (String × String)) :
    List (RKey × RVal) :=
  pairs.foldl (fun acc q => upsert acc (RKey.kbytes q.1) (RVal.vbytes q.2)) md

/-- The metadata hash as `initialize_bloom_filter` writes it (and as `HGETALL`
returns it with `decode_responses=False`): the four fields in the insertion
order of the Python mapping, with `bytes` keys and `bytes` values. -/
def stdMeta (size hash_functions expected_elements false_positive_rate : String) :
    List (RKey × RVal) :=
  [(RKey.kbytes "size", RVal.vbytes size),
   (RKey.kbytes "hash_functions", RVal.vbytes hash_functions),
   (RKey.kbytes "expected_elements", RVal.vbytes expected_elements),
   (RKey.kbytes "false_positive_rate", RVal.vbytes false_positive_rate)]

/-- The operation `initialize_bloom_filter(redis_client, filter_name, expected_elements,
false_positive_rate)`: compute `m` and `k`, `HSET` the four metadata fields
under `"<name>:metadata"`, `SET` a zero-filled buffer of `(m + 7) // 8` bytes
under `"<name>:bits"`, and return the parameter dict (modelled by the pair
`(m, k)`; the remaining dict entries are the call's own arguments).  `frepr`
is the redis-py serialisation of the Python float `false_positive_rate`; none
of the module's reads depend on it.  The function has no failure path. -/
noncomputable def initialize_bloom_filter (frepr : ℝ → String) (st : RedisState)
    (filter_name : String) (expected_elements : ℕ) (false_positive_rate : ℝ) :
    RedisState × (ℤ × ℤ) :=
  let m := bloom_m expected_elements false_positive_rate
  let k := bloom_k expected_elements false_positive_rate
  let md := hsetMapping (st.hashes (metaKeyOf filter_name))
    [("size", toString m), ("hash_functions", toString k),
     ("expected_elements", toString expected_elements),
     ("false_positive_rate", frepr false_positive_rate)]
  ({ hashes := fun s => if s = metaKeyOf filter_name then md else st.hashes s,
     strings := fun s =>
       if s = bitsKeyOf filter_name then List.replicate (8 * ((m.toNat + 7) / 8)) false
       else st.strings s },
   (m, k))

/-- Whether every field key of a metadata dict is a `str` key — the shape
`HGETALL` returns when the client is configured with `decode_responses=True`. -/
def allStrKeys (md : List (RKey × RVal)) : Bool :=
  md.all fun q =>
    match q.1 with
    | RKey.kstr _ => true
    | RKey.kbytes _ => false

/-- A concrete stand-in for the external `mmh3.hash` primitive, used only to
instantiate the universally quantified theorems at concrete inputs.  Like the
signed 32-bit `mmh3.hash`, it also takes negative values. -/
def wHash : String → ℕ → ℤ := fun s i => (s.length : ℤ) - 5 + i

/-- A concrete store holding one initialized filter `"f"` with `m = 128`,
`k = 2` and no bits set, for instantiating theorems. -/
def wState : RedisState :=
  { hashes := fun s => if s = "f:metadata" then stdMeta "128" "2" "10" "0.01" else [],
    strings := fun _ => [] }

/-- A concrete store whose metadata dict for `"f"` has `str` field keys, the
shape produced by a `decode_responses=True` client. -/
def wStateStr : RedisState :=
  { hashes := fun s =>
      if s = "f:metadata" then
        [(RKey.kstr "size", RVal.vstr "128"), (RKey.kstr "hash_functions", RVal.vstr "2")]
      else [],
    strings := fun _ => [] }

/-- A concrete store holding filter `"f"` with some bits already set, for
instantiating the re-initialization theorem. -/
def wStateInit : RedisState :=
  { hashes := fun s => if s = "f:metadata" then stdMeta "128" "2" "10" "0.01" else [],
    strings := fun s => if s = "f:bits" then List.replicate 16 true else [] }

/-- A concrete stand-in for the redis-py float serialisation, used only to
instantiate theorems quantified over `frepr`. -/
def wFrepr : ℝ → String := fun _ => "0.01"

/-! ### Bit-buffer lemmas -/

theorem zeroExtend_length (buf : List Bool) (off : ℕ) :
    (zeroExtend buf off).length =
      if off < buf.length then buf.length else 8 * (off / 8 + 1) := by
  unfold zeroExtend
  split
  · rfl
  · simp only [List.length_append, List.length_replicate]
    omega

theorem lt_zeroExtend_length (buf : List Bool) (off : ℕ) :
    off < (zeroExtend buf off).length := by
  rw [zeroExtend_length]
  split <;> omega

theorem zeroExtend_getbit (buf : List Bool) (off o : ℕ) :
    (zeroExtend buf off).getD o false = buf.getD o false := by
  unfold zeroExtend
  split
  · rfl
  · rw [List.getD_eq_getElem?_getD, List.getD_eq_getElem?_getD, List.getElem?_append]
    split
    · rfl
    · rw [List.getElem?_replicate, List.getElem?_eq_none (show buf.length ≤ o by omega)]
      split <;> rfl

theorem getbitL_setbitL_self (buf : List Bool) (off : ℕ) :
    getbitL (setbitL buf off) off = true := by
  unfold getbitL setbitL
  rw [List.getD_eq_getElem?_getD, List.getElem?_set_self (lt_zeroExtend_length buf off)]
  rfl

theorem getbitL_setbitL_ne (buf : List Bool) (off o : ℕ) (h : o ≠ off) :
    getbitL (setbitL buf off) o = getbitL buf o := by
  unfold getbitL setbitL
  rw [List.getD_eq_getElem?_getD, List.getElem?_set_ne (fun he => h he.symm),
    ← List.getD_eq_getElem?_getD]
  exact zeroExtend_getbit buf off o

theorem getbitL_setbitL_iff (buf : List Bool) (off o : ℕ) :
    getbitL (setbitL buf off) o = true ↔ (o = off ∨ getbitL buf o = true) := by
  by_cases h : o = off
  · subst h
    simp [getbitL_setbitL_self]
  · rw [getbitL_setbitL_ne buf off o h]
    simp [h]

theorem setbitL_of_getbitL (buf : List Bool) (off : ℕ)
    (h : getbitL buf off = true) : setbitL buf off = buf := by
  unfold getbitL at h
  have hlt : off < buf.length := by
    by_contra hge
    rw [List.getD_eq_getElem?_getD, List.getElem?_eq_none (by omega)] at h
    exact Bool.false_ne_true h
  have hsome : buf[off]? = some true := by
    rw [List.getD_eq_getElem?_getD] at h
    match hx : buf[off]? with
    | none => rw [hx] at h; exact absurd h Bool.false_ne_true
    | some b => rw [hx] at h; simp at h; rw [h]
  unfold setbitL zeroExtend
  rw [if_pos hlt]
  apply List.ext_getElem?
  intro n
  rw [List.getElem?_set]
  split
  · rename_i he
    rw [← he, hsome]
  · rfl

/-! ### State-level bit lemmas -/

theorem rsetbit_hashes (st : RedisState) (key : String) (off : ℕ) :
    (rsetbit st key off).hashes = st.hashes := rfl

theorem rgetbit_rsetbit_self (st : RedisState) (key : String) (off : ℕ) :
    rgetbit (rsetbit st key off) key off = true := by
  unfold rgetbit rsetbit
  show getbitL (if key = key then setbitL (st.strings key) off else st.strings key) off = true
  rw [if_pos rfl]
  exact getbitL_setbitL_self (st.strings key) off

theorem rgetbit_rsetbit_mono (st : RedisState) (key key' : String) (off o : ℕ)
    (h : rgetbit st key' o = true) :
    rgetbit (rsetbit st key off) key' o = true := by
  unfold rgetbit at h
  unfold rgetbit rsetbit
  show getbitL (if key' = key then setbitL (st.strings key') off else st.strings key') o = true
  by_cases hk : key' = key
  · rw [if_pos hk]
    exact (getbitL_setbitL_iff (st.strings key') off o).2 (Or.inr h)
  · rw [if_neg hk]
    exact h

theorem rsetbit_of_rgetbit (st : RedisState) (key : String) (off : ℕ)
    (h : rgetbit st key off = true) : rsetbit st key off = st := by
  unfold rgetbit at h
  unfold rsetbit
  have hs : (fun s => if s = key then setbitL (st.strings s) off else st.strings s)
      = st.strings := by
    funext s
    by_cases hk : s = key
    · rw [if_pos hk, hk]
      exact setbitL_of_getbitL (st.strings key) off h
    · rw [if_neg hk]
  rw [hs]

/-! ### Insert-loop lemmas -/

theorem insert_bits_nil (st : RedisState) (key : String) :
    insert_bits st key [] = st := rfl

theorem insert_bits_cons (st : RedisState) (key : String) (o : ℕ) (offs : List ℕ) :
    insert_bits st key (o :: offs) = insert_bits (rsetbit st key o) key offs := rfl

theorem insert_bits_hashes (st : RedisState) (key : String) (offs : List ℕ) :
    (insert_bits st key offs).hashes = st.hashes := by
  induction offs generalizing st with
  | nil => rfl
  | cons o rest ih => rw [insert_bits_cons, ih, rsetbit_hashes]

theorem insert_bits_mono (st : RedisState) (key key' : String) (offs : List ℕ) (o : ℕ)
    (h : rgetbit st key' o = true) :
    rgetbit (insert_bits st key offs) key' o = true := by
  induction offs generalizing st with
  | nil => exact h
  | cons a rest ih =>
    rw [insert_bits_cons]
    exact ih (rsetbit st key a) (rgetbit_rsetbit_mono st key key' a o h)

theorem insert_bits_sets (st : RedisState) (key : String) (offs : List ℕ) (o : ℕ)
    (h : o ∈ offs) :
    rgetbit (insert_bits st key offs) key o = true := by
  induction offs generalizing st with
  | nil => cases h
  | cons a rest ih =>
    rw [insert_bits_cons]
    rcases List.mem_cons.1 h with ha | hrest
    · exact insert_bits_mono (rsetbit st key a) key key rest o
        (ha ▸ rgetbit_rsetbit_self st key a)
    · exact ih (rsetbit st key a) hrest

theorem insert_bits_of_all_set (st : RedisState) (key : String) (offs : List ℕ)
    (h : ∀ o ∈ offs, rgetbit st key o = true) :
    insert_bits st key offs = st := by
  induction offs generalizing st with
  | nil => rfl
  | cons a rest ih =>
    rw [insert_bits_cons, rsetbit_of_rgetbit st key a (h a (List.mem_cons_self a rest))]
    exact ih st (fun o ho => h o (List.mem_cons_of_mem a ho))

theorem insert_bits_idem (st : RedisState) (key : String) (offs : List ℕ) :
    insert_bits (insert_bits st key offs) key offs = insert_bits st key offs :=
  insert_bits_of_all_set (insert_bits st key offs) key offs
    (fun o ho => insert_bits_sets st key offs o ho)

/-! ### Query-loop lemmas -/

theorem check_loop_eq_all (st : RedisState) (key : String) (offs : List ℕ) :
    check_loop st key offs = offs.all (fun o => rgetbit st key o) := by
  induction offs with
  | nil => rfl
  | cons o rest ih =>
    unfold check_loop
    rw [List.all_cons, ih]
    by_cases h : rgetbit st key o = true
    · rw [if_pos h, h, Bool.true_and]
    · rw [if_neg h, Bool.eq_false_iff.2 h, Bool.false_and]

theorem check_reads_eq (st : RedisState) (key : String) (offs : List ℕ) :
    check_reads st key offs =
      offs.takeWhile (fun o => rgetbit st key o)
        ++ (offs.dropWhile (fun o => rgetbit st key o)).take 1 := by
  induction offs with
  | nil => rfl
  | cons o rest ih =>
    unfold check_reads
    by_cases h : rgetbit st key o = true
    · rw [if_pos h, ih, List.takeWhile_cons_of_pos h, List.dropWhile_cons_of_pos h,
        List.cons_append]
    · rw [if_neg h, List.takeWhile_cons_of_neg (by simpa using h),
        List.dropWhile_cons_of_neg (by simpa using h), List.nil_append]
      rfl

/-! ### Operation equations under readable metadata -/

theorem add_eq_of_MetaOK (hash : String → ℕ → ℤ) (st : RedisState)
    (name x : String) (m k : ℤ) (h : MetaOK st name m k) :
    add_to_bloom_filter hash st name x =
      Except.ok (true, insert_bits st (bitsKeyOf name) (offsetsOf hash x k.toNat m)) := by
  obtain ⟨h1, h2, h3⟩ := h
  unfold add_to_bloom_filter
  rw [if_neg h1, h2, h3]

theorem check_eq_of_MetaOK (hash : String → ℕ → ℤ) (st : RedisState)
    (name x : String) (m k : ℤ) (h : MetaOK st name m k) :
    check_bloom_filter hash st name x =
      Except.ok (check_loop st (bitsKeyOf name) (offsetsOf hash x k.toNat m)) := by
  obtain ⟨h1, h2, h3⟩ := h
  unfold check_bloom_filter
  rw [if_neg h1, h2, h3]

theorem MetaOK_insert_bits (st : RedisState) (name : String) (m k : ℤ)
    (key : String) (offs : List ℕ) (h : MetaOK st name m k) :
    MetaOK (insert_bits st key offs) name m k := by
  obtain ⟨h1, h2, h3⟩ := h
  refine ⟨?_, ?_, ?_⟩ <;> rw [insert_bits_hashes] <;> assumption

theorem add_many_nil (hash : String → ℕ → ℤ) (st : RedisState) (name : String) :
    add_many hash st name [] = st := rfl

theorem add_many_cons (hash : String → ℕ → ℤ) (st : RedisState) (name y : String)
    (ys : List String) (m k : ℤ) (h : MetaOK st name m k) :
    add_many hash st name (y :: ys) =
      add_many hash (insert_bits st (bitsKeyOf name) (offsetsOf hash y k.toNat m)) name ys := by
  unfold add_many
  rw [List.foldl_cons, add_eq_of_MetaOK hash st name y m k h]

theorem add_many_mono (hash : String → ℕ → ℤ) (st : RedisState) (name : String)
    (ys : List String) (m k : ℤ) (key' : String) (o : ℕ)
    (hmeta : MetaOK st name m k) (h : rgetbit st key' o = true) :
    rgetbit (add_many hash st name ys) key' o = true := by
  induction ys generalizing st with
  | nil => exact h
  | cons y rest ih =>
    rw [add_many_cons hash st name y rest m k hmeta]
    exact ih (insert_bits st (bitsKeyOf name) (offsetsOf hash y k.toNat m))
      (MetaOK_insert_bits st name m k (bitsKeyOf name) (offsetsOf hash y k.toNat m) hmeta)
      (insert_bits_mono st (bitsKeyOf name) key' (offsetsOf hash y k.toNat m) o h)

theorem MetaOK_add_many (hash : String → ℕ → ℤ) (st : RedisState) (name : String)
    (ys : List String) (m k : ℤ) (hmeta : MetaOK st name m k) :
    MetaOK (add_many hash st name ys) name m k := by
  induction ys generalizing st with
  | nil => exact hmeta
  | cons y rest ih =>
    rw [add_many_cons hash st name y rest m k hmeta]
    exact ih (insert_bits st (bitsKeyOf name) (offsetsOf hash y k.toNat m))
      (MetaOK_insert_bits st name m k (bitsKeyOf name) (offsetsOf hash y k.toNat m) hmeta)

theorem lookup_kbytes_of_allStrKeys (md : List (RKey × RVal)) (f : String)
    (h : allStrKeys md = true) : md.lookup (RKey.kbytes f) = none := by
  induction md with
  | nil => rfl
  | cons q rest ih =>
    unfold allStrKeys at h
    rw [List.all_cons, Bool.and_eq_true] at h
    obtain ⟨hq, hrest⟩ := h
    obtain ⟨qk, qv⟩ := q
    match qk with
    | RKey.kstr s =>
      rw [List.lookup_cons]
      have hne : (RKey.kbytes f == RKey.kstr s) = false :=
        beq_eq_false_iff_ne.2 (fun hcontra => RKey.noConfusion hcontra)
      rw [hne]
      exact ih hrest
    | RKey.kbytes s => exact absurd hq Bool.false_ne_true

/-! ### Claim theorems -/

/-- C4: on a filter name whose metadata mapping is absent from the store, both
`add_to_bloom_filter` and `check_bloom_filter` raise the not-found error
(`ValueError`) for every key; neither returns a non-error result. -/
theorem not_found_propagation (hash : String → ℕ → ℤ) (st : RedisState)
    (name x : String) (h : st.hashes (metaKeyOf name) = []) :
    add_to_bloom_filter hash st name x = Except.error PyError.valueError ∧
    check_bloom_filter hash st name x = Except.error PyError.valueError := by
  constructor
  · unfold add_to_bloom_filter
    rw [if_pos h]
  · unfold check_bloom_filter
    rw [if_pos h]

theorem not_found_propagation_witness :
    wState.hashes (metaKeyOf "g") = [] ∧
    add_to_bloom_filter wHash wState "g" "alice" = Except.error PyError.valueError ∧
    check_bloom_filter wHash wState "g" "alice" = Except.error PyError.valueError :=
  ⟨by decide, not_found_propagation wHash wState "g" "alice" (by decide)⟩

/-- C8: for every key, seed and positive `m`, the bit offset
`mmh3.hash(item_str, i) % m` computed by insert and query lies in `[0, m)` —
in particular it is non-negative even when the signed hash value is negative,
for every possible hash function. -/
theorem bit_offset_in_range (hash : String → ℕ → ℤ) (item : String) (i : ℕ)
    (m : ℤ) (hm : 0 < m) :
    0 ≤ bit_offset hash item i m ∧ bit_offset hash item i m < m :=
  ⟨Int.emod_nonneg (hash item i) (ne_of_gt hm), Int.emod_lt_of_pos (hash item i) hm⟩

theorem bit_offset_in_range_witness :
    (0 : ℤ) < 3 ∧ wHash "" 0 < 0 ∧
    (0 ≤ bit_offset wHash "" 0 3 ∧ bit_offset wHash "" 0 3 < 3) :=
  ⟨by decide, by decide, bit_offset_in_range wHash "" 0 3 (by decide)⟩

/-- C10: when the metadata mapping for a name exists but its field keys are
`str` rather than `bytes` (a `decode_responses=True` client), both operations
raise `KeyError` at `metadata[b'size']`, before the string branch of the
`isinstance` coercion can apply. -/
theorem str_keys_keyerror (hash : String → ℕ → ℤ) (st : RedisState)
    (name x : String) (hne : st.hashes (metaKeyOf name) ≠ [])
    (hstr : allStrKeys (st.hashes (metaKeyOf name)) = true) :
    add_to_bloom_filter hash st name x = Except.error PyError.keyError ∧
    check_bloom_filter hash st name x = Except.error PyError.keyError := by
  have hsz : metaField (st.hashes (metaKeyOf name)) "size" = Except.error PyError.keyError := by
    unfold metaField
    rw [lookup_kbytes_of_allStrKeys _ _ hstr]
  constructor
  · unfold add_to_bloom_filter
    rw [if_neg hne, hsz]
  · unfold check_bloom_filter
    rw [if_neg hne, hsz]

theorem str_keys_keyerror_witness :
    wStateStr.hashes (metaKeyOf "f") ≠ [] ∧
    allStrKeys (wStateStr.hashes (metaKeyOf "f")) = true ∧
    add_to_bloom_filter wHash wStateStr "f" "alice" = Except.error PyError.keyError ∧
    check_bloom_filter wHash wStateStr "f" "alice" = Except.error PyError.keyError :=
  ⟨by decide, by decide, str_keys_keyerror wHash wStateStr "f" "alice" (by decide) (by decide)⟩

/-- C1: no false negatives — for every filter whose metadata is readable from
the store and every key `x`, once `add_to_bloom_filter(name, x)` has completed
all `k` bit-set operations, `check_bloom_filter(name, x)` returns `True`, no
matter which other keys are inserted before (the arbitrary starting state
`st`) or after (the arbitrary list `ys`). -/
theorem no_false_negatives (hash : String → ℕ → ℤ) (st : RedisState)
    (name x : String) (m k : ℤ) (ys : List String)
    (hmeta : MetaOK st name m k) (_hm : 0 < m) :
    ∃ st1, add_to_bloom_filter hash st name x = Except.ok (true, st1) ∧
      check_bloom_filter hash (add_many hash st1 name ys) name x = Except.ok true := by
  refine ⟨insert_bits st (bitsKeyOf name) (offsetsOf hash x k.toNat m),
    add_eq_of_MetaOK hash st name x m k hmeta, ?_⟩
  have hmeta1 : MetaOK (insert_bits st (bitsKeyOf name) (offsetsOf hash x k.toNat m)) name m k :=
    MetaOK_insert_bits st name m k (bitsKeyOf name) (offsetsOf hash x k.toNat m) hmeta
  have hmeta2 : MetaOK (add_many hash (insert_bits st (bitsKeyOf name)
      (offsetsOf hash x k.toNat m)) name ys) name m k :=
    MetaOK_add_many hash _ name ys m k hmeta1
  rw [check_eq_of_MetaOK hash _ name x m k hmeta2, check_loop_eq_all]
  have hall : (offsetsOf hash x k.toNat m).all
      (fun o => rgetbit (add_many hash (insert_bits st (bitsKeyOf name)
        (offsetsOf hash x k.toNat m)) name ys) (bitsKeyOf name) o) = true := by
    rw [List.all_eq_true]
    intro o ho
    exact add_many_mono hash _ name ys m k (bitsKeyOf name) o hmeta1
      (insert_bits_sets st (bitsKeyOf name) (offsetsOf hash x k.toNat m) o ho)
  rw [hall]

theorem no_false_negatives_witness :
    MetaOK wState "f" 128 2 ∧ (0 : ℤ) < 128 ∧
    ∃ st1, add_to_bloom_filter wHash wState "f" "alice" = Except.ok (true, st1) ∧
      check_bloom_filter wHash (add_many wHash st1 "f" ["bob", "carol"]) "f" "alice" =
        Except.ok true :=
  ⟨by decide, by decide,
    no_false_negatives wHash wState "f" "alice" 128 2 ["bob", "carol"] (by decide) (by decide)⟩

/-- C5: insert is idempotent — for every readable filter, every key and every
starting bit-buffer state, the externally observable bit buffer after two
consecutive `add_to_bloom_filter(name, x)` calls equals the buffer after a
single one. -/
theorem insert_idempotent (hash : String → ℕ → ℤ) (st : RedisState)
    (name x : String) (m k : ℤ) (hmeta : MetaOK st name m k) (_hm : 0 < m) :
    ∃ st1 st2, add_to_bloom_filter hash st name x = Except.ok (true, st1) ∧
      add_to_bloom_filter hash st1 name x = Except.ok (true, st2) ∧
      st2.strings (bitsKeyOf name) = st1.strings (bitsKeyOf name) := by
  refine ⟨insert_bits st (bitsKeyOf name) (offsetsOf hash x k.toNat m),
    insert_bits (insert_bits st (bitsKeyOf name) (offsetsOf hash x k.toNat m))
      (bitsKeyOf name) (offsetsOf hash x k.toNat m),
    add_eq_of_MetaOK hash st name x m k hmeta,
    add_eq_of_MetaOK hash _ name x m k
      (MetaOK_insert_bits st name m k (bitsKeyOf name) (offsetsOf hash x k.toNat m) hmeta), ?_⟩
  rw [insert_bits_idem]

theorem insert_idempotent_witness :
    MetaOK wState "f" 128 2 ∧ (0 : ℤ) < 128 ∧
    ∃ st1 st2, add_to_bloom_filter wHash wState "f" "alice" = Except.ok (true, st1) ∧
      add_to_bloom_filter wHash st1 "f" "alice" = Except.ok (true, st2) ∧
      st2.strings (bitsKeyOf "f") = st1.strings (bitsKeyOf "f") :=
  ⟨by decide, by decide,
    insert_idempotent wHash wState "f" "alice" 128 2 (by decide) (by decide)⟩

/-! ### Sizing lemmas -/

theorem pyInt_mono {x y : ℝ} (h : x ≤ y) : pyInt x ≤ pyInt y := by
  unfold pyInt
  split <;> split
  · exact Int.floor_mono h
  · rename_i hx hy
    exact absurd (le_trans hx h) hy
  · rename_i hx hy
    have h1 : ⌈x⌉ ≤ (0 : ℤ) := Int.ceil_le.2 (by
      rw [Int.cast_zero]
      exact le_of_lt (lt_of_not_ge hx))
    have h2 : (0 : ℤ) ≤ ⌊y⌋ := Int.floor_nonneg.2 hy
    omega
  · exact Int.ceil_mono h

theorem pyInt_of_nonneg {x : ℝ} (h : 0 ≤ x) : pyInt x = ⌊x⌋ := by
  unfold pyInt
  rw [if_pos h]

/-- C6: the floors are always enforced — for every capacity `n` and every
rate `p` (in particular the boundary `n = 1`, `p = 0.5`), the metadata
produced by `initialize_bloom_filter` satisfies `m ≥ 100` and `k ≥ 1`. -/
theorem floors_enforced (n : ℕ) (p : ℝ) :
    100 ≤ bloom_m n p ∧ 1 ≤ bloom_k n p :=
  ⟨le_max_left 100 (m_raw n p), le_max_left 1 (k_raw n p)⟩

/-- C7: sizing monotonicity of `m = bloom_m` — for fixed `p` in `(0,1)`, `m`
is non-decreasing in the capacity `n`; for fixed positive `n`, `m` is
non-increasing in `p` within `(0,1)`. -/
theorem sizing_monotonic :
    (∀ (p : ℝ) (n1 n2 : ℕ), 0 < p → p < 1 → 1 ≤ n1 → n1 ≤ n2 →
      bloom_m n1 p ≤ bloom_m n2 p) ∧
    (∀ (n : ℕ) (p1 p2 : ℝ), 1 ≤ n → 0 < p1 → p1 ≤ p2 → p2 < 1 →
      bloom_m n p2 ≤ bloom_m n p1) := by
  have hD : (0 : ℝ) < (Real.log 2) ^ 2 := pow_pos (Real.log_pos one_lt_two) 2
  constructor
  · intro p n1 n2 hp hp1 _hn1 hn
    unfold bloom_m m_raw
    apply max_le_max (le_refl 100)
    apply pyInt_mono
    apply (div_le_div_iff_of_pos_right hD).2
    have hlog : Real.log p < 0 := Real.log_neg hp hp1
    have hcast : (n1 : ℝ) ≤ (n2 : ℝ) := Nat.cast_le.2 hn
    nlinarith
  · intro n p1 p2 _hn hp1 h12 hp2
    unfold bloom_m m_raw
    apply max_le_max (le_refl 100)
    apply pyInt_mono
    apply (div_le_div_iff_of_pos_right hD).2
    have hlog : Real.log p1 ≤ Real.log p2 := Real.log_le_log hp1 h12
    have hcast : (0 : ℝ) ≤ (n : ℝ) := Nat.cast_nonneg n
    nlinarith

theorem sizing_monotonic_witness :
    (0 < (1/2 : ℝ) ∧ (1/2 : ℝ) < 1 ∧ 1 ≤ 3 ∧ 3 ≤ 5 ∧
      bloom_m 3 (1/2) ≤ bloom_m 5 (1/2)) ∧
    (1 ≤ 3 ∧ 0 < (1/4 : ℝ) ∧ (1/4 : ℝ) ≤ (1/2 : ℝ) ∧ (1/2 : ℝ) < 1 ∧
      bloom_m 3 (1/2) ≤ bloom_m 3 (1/4)) :=
  ⟨⟨by norm_num, by norm_num, by norm_num, by norm_num,
    sizing_monotonic.1 (1/2) 3 5 (by norm_num) (by norm_num) (by norm_num) (by norm_num)⟩,
   ⟨by norm_num, by norm_num, by norm_num, by norm_num,
    sizing_monotonic.2 3 (1/4) (1/2) (by norm_num) (by norm_num) (by norm_num) (by norm_num)⟩⟩

/-- C2 (amended): the raw sizing values are computed with Python `int()`
truncation — which is the floor here, both quantities being non-negative —
not with `ceil`/`round`: `m_raw = floor(-(n*ln p)/(ln 2)^2)` and
`k_raw = floor((m_raw/n)*ln 2)`, before the floors `k = max(1, k_raw)` and
`m = max(100, m_raw)` are applied. -/
theorem raw_sizing_truncates (n : ℕ) (p : ℝ) (_hn : 1 ≤ n) (hp : 0 < p) (hp1 : p < 1) :
    m_raw n p = ⌊-((n : ℝ) * Real.log p) / (Real.log 2) ^ 2⌋ ∧
    k_raw n p = ⌊((m_raw n p : ℝ) / (n : ℝ)) * Real.log 2⌋ := by
  have hD : (0 : ℝ) < (Real.log 2) ^ 2 := pow_pos (Real.log_pos one_lt_two) 2
  have hlog : Real.log p < 0 := Real.log_neg hp hp1
  have hx : 0 ≤ -((n : ℝ) * Real.log p) / (Real.log 2) ^ 2 := by
    apply div_nonneg _ (le_of_lt hD)
    have hcast : (0 : ℝ) ≤ (n : ℝ) := Nat.cast_nonneg n
    nlinarith
  have h1 : m_raw n p = ⌊-((n : ℝ) * Real.log p) / (Real.log 2) ^ 2⌋ := by
    unfold m_raw
    exact pyInt_of_nonneg hx
  refine ⟨h1, ?_⟩
  have hm0 : (0 : ℝ) ≤ (m_raw n p : ℝ) := by
    rw [h1]
    exact_mod_cast Int.floor_nonneg.2 hx
  have hk : 0 ≤ ((m_raw n p : ℝ) / (n : ℝ)) * Real.log 2 :=
    mul_nonneg (div_nonneg hm0 (Nat.cast_nonneg n)) (le_of_lt (Real.log_pos one_lt_two))
  unfold k_raw
  exact pyInt_of_nonneg hk

theorem raw_sizing_truncates_witness :
    1 ≤ 1 ∧ 0 < (1/2 : ℝ) ∧ (1/2 : ℝ) < 1 ∧
    (m_raw 1 (1/2) = ⌊-((1 : ℕ) * Real.log (1/2) : ℝ) / (Real.log 2) ^ 2⌋ ∧
     k_raw 1 (1/2) = ⌊((m_raw 1 (1/2) : ℝ) / ((1 : ℕ) : ℝ)) * Real.log 2⌋) :=
  ⟨le_refl 1, by norm_num, by norm_num,
    raw_sizing_truncates 1 (1/2) (le_refl 1) (by norm_num) (by norm_num)⟩

/-- C2 counterexample: at `n = 1`, `p = 1/2` the code computes `m_raw = 1`
whereas `ceil(-(n*ln p)/(ln 2)^2) = 2`, and `k_raw = 0` whereas
`round((m_raw/n)*ln 2) = 1`: the source truncates with `int()` instead of
taking the ceiling and rounding. -/
theorem raw_sizing_not_ceil_round :
    m_raw 1 (1/2) = 1 ∧
    ⌈-((1 : ℝ) * Real.log (1/2)) / (Real.log 2) ^ 2⌉ = 2 ∧
    k_raw 1 (1/2) = 0 ∧
    round (((m_raw 1 (1/2) : ℤ) : ℝ) / ((1 : ℕ) : ℝ) * Real.log 2) = 1 := by
  have hl0 : (0 : ℝ) < Real.log 2 := Real.log_pos one_lt_two
  have hl1 : Real.log 2 < 1 := lt_trans Real.log_two_lt_d9 (by norm_num)
  have hlh : (1/2 : ℝ) < Real.log 2 := lt_trans (by norm_num) Real.log_two_gt_d9
  have hlne : Real.log 2 ≠ 0 := ne_of_gt hl0
  have hinv : Real.log ((1:ℝ)/2) = -Real.log 2 := by
    rw [one_div, Real.log_inv]
  have hxeq : -(((1:ℕ) : ℝ) * Real.log ((1:ℝ)/2)) / (Real.log 2) ^ 2 = 1 / Real.log 2 := by
    rw [hinv]
    push_cast
    rw [eq_div_iff hlne]
    field_simp
    ring
  have hxeq' : -((1 : ℝ) * Real.log ((1:ℝ)/2)) / (Real.log 2) ^ 2 = 1 / Real.log 2 := by
    rw [hinv]
    rw [eq_div_iff hlne]
    field_simp
    ring
  have hfl : ⌊(1 : ℝ) / Real.log 2⌋ = 1 := by
    rw [Int.floor_eq_iff]
    constructor
    · push_cast
      rw [le_div_iff hl0]
      linarith
    · push_cast
      rw [div_lt_iff hl0]
      linarith
  have hm : m_raw 1 (1/2) = 1 := by
    unfold m_raw
    rw [pyInt_of_nonneg (by
      rw [hxeq]
      positivity)]
    rw [hxeq]
    exact hfl
  refine ⟨hm, ?_, ?_, ?_⟩
  · rw [hxeq']
    rw [Int.ceil_eq_iff]
    constructor
    · push_cast
      rw [lt_div_iff hl0]
      linarith
    · push_cast
      rw [div_le_iff hl0]
      linarith
  · unfold k_raw
    rw [hm]
    have harg : (((1:ℤ) : ℝ) / ((1:ℕ) : ℝ)) * Real.log 2 = Real.log 2 := by
      push_cast
      ring
    rw [harg, pyInt_of_nonneg (le_of_lt hl0), Int.floor_eq_iff]
    constructor
    · push_cast
      linarith
    · push_cast
      linarith
  · rw [hm]
    have harg : ((1:ℤ) : ℝ) / ((1:ℕ) : ℝ) * Real.log 2 = Real.log 2 := by
      push_cast
      ring
    rw [harg, round_eq, Int.floor_eq_iff]
    constructor
    · push_cast
      linarith
    · push_cast
      linarith

/-- C3: for every readable filter and every key, `check_bloom_filter` returns
`True` iff all `k` bits at offsets `mmh3.hash(str(x), i) % m`, `i < k`, are
set; it returns `False` exactly when some bit is unset, and its `GETBIT` trace
stops at the first unset bit without reading the remaining offsets. -/
theorem query_semantics (hash : String → ℕ → ℤ) (st : RedisState)
    (name x : String) (m k : ℤ) (hmeta : MetaOK st name m k) (_hm : 0 < m) :
    (check_bloom_filter hash st name x = Except.ok true ↔
      ∀ i < k.toNat, rgetbit st (bitsKeyOf name) ((bit_offset hash x i m).toNat) = true) ∧
    (check_bloom_filter hash st name x = Except.ok false ↔
      ¬ ∀ i < k.toNat, rgetbit st (bitsKeyOf name) ((bit_offset hash x i m).toNat) = true) ∧
    check_reads st (bitsKeyOf name) (offsetsOf hash x k.toNat m) =
      (offsetsOf hash x k.toNat m).takeWhile (fun o => rgetbit st (bitsKeyOf name) o)
        ++ ((offsetsOf hash x k.toNat m).dropWhile
            (fun o => rgetbit st (bitsKeyOf name) o)).take 1 := by
  have hE := check_eq_of_MetaOK hash st name x m k hmeta
  have hall : ((offsetsOf hash x k.toNat m).all (fun o => rgetbit st (bitsKeyOf name) o) = true)
      ↔ ∀ i < k.toNat, rgetbit st (bitsKeyOf name) ((bit_offset hash x i m).toNat) = true := by
    rw [List.all_eq_true]
    constructor
    · intro h i hi
      exact h _ (by
        unfold offsetsOf
        exact List.mem_map.2 ⟨i, List.mem_range.2 hi, rfl⟩)
    · intro h o ho
      unfold offsetsOf at ho
      obtain ⟨i, hi, rfl⟩ := List.mem_map.1 ho
      exact h i (List.mem_range.1 hi)
  refine ⟨?_, ?_, check_reads_eq st (bitsKeyOf name) (offsetsOf hash x k.toNat m)⟩
  · rw [hE]
    simp only [Except.ok.injEq]
    rw [check_loop_eq_all, hall]
  · rw [hE]
    simp only [Except.ok.injEq]
    rw [check_loop_eq_all, Bool.eq_false_iff, Ne, hall]

theorem query_semantics_witness :
    MetaOK wState "f" 128 2 ∧ (0 : ℤ) < 128 ∧
    ((check_bloom_filter wHash wState "f" "alice" = Except.ok true ↔
       ∀ i < (2 : ℤ).toNat, rgetbit wState (bitsKeyOf "f")
         ((bit_offset wHash "alice" i 128).toNat) = true) ∧
     (check_bloom_filter wHash wState "f" "alice" = Except.ok false ↔
       ¬ ∀ i < (2 : ℤ).toNat, rgetbit wState (bitsKeyOf "f")
         ((bit_offset wHash "alice" i 128).toNat) = true) ∧
     check_reads wState (bitsKeyOf "f") (offsetsOf wHash "alice" (2 : ℤ).toNat 128) =
       (offsetsOf wHash "alice" (2 : ℤ).toNat 128).takeWhile
         (fun o => rgetbit wState (bitsKeyOf "f") o)
         ++ ((offsetsOf wHash "alice" (2 : ℤ).toNat 128).dropWhile
             (fun o => rgetbit wState (bitsKeyOf "f") o)).take 1) :=
  ⟨by decide, by decide,
    query_semantics wHash wState "f" "alice" 128 2 (by decide) (by decide)⟩

/-! ### Re-initialization -/

theorem hsetMapping_stdMeta (a b c d a2 b2 c2 d2 : String) :
    hsetMapping (stdMeta a b c d)
      [("size", a2), ("hash_functions", b2),
       ("expected_elements", c2), ("false_positive_rate", d2)] =
      stdMeta a2 b2 c2 d2 := by
  simp +decide [hsetMapping, stdMeta, upsert]

/-- C9: re-initialization silently overwrites — on a name that already holds
filter metadata and bits, `initialize_bloom_filter` raises no error (it is a
total function), replaces the four metadata fields with the newly computed
values, and replaces the bit channel with a zero-filled buffer of exactly
`(m + 7) // 8` bytes (`8 * ((m + 7) / 8)` bits), erasing every previously set
bit. -/
theorem reinit_overwrites (frepr : ℝ → String) (st : RedisState) (name : String)
    (n : ℕ) (p : ℝ) (a b c d : String)
    (hmd : st.hashes (metaKeyOf name) = stdMeta a b c d)
    (_hbits : st.strings (bitsKeyOf name) ≠ []) :
    (initialize_bloom_filter frepr st name n p).1.hashes (metaKeyOf name) =
      stdMeta (toString (bloom_m n p)) (toString (bloom_k n p)) (toString n) (frepr p) ∧
    (initialize_bloom_filter frepr st name n p).1.strings (bitsKeyOf name) =
      List.replicate (8 * (((bloom_m n p).toNat + 7) / 8)) false ∧
    ((initialize_bloom_filter frepr st name n p).1.strings (bitsKeyOf name)).length =
      8 * (((bloom_m n p).toNat + 7) / 8) := by
  refine ⟨?_, ?_, ?_⟩
  · show (if metaKeyOf name = metaKeyOf name
        then hsetMapping (st.hashes (metaKeyOf name))
          [("size", toString (bloom_m n p)), ("hash_functions", toString (bloom_k n p)),
           ("expected_elements", toString n), ("false_positive_rate", frepr p)]
        else st.hashes (metaKeyOf name)) = _
    rw [if_pos rfl, hmd, hsetMapping_stdMeta]
  · show (if bitsKeyOf name = bitsKeyOf name
        then List.replicate (8 * (((bloom_m n p).toNat + 7) / 8)) false
        else st.strings (bitsKeyOf name)) = _
    rw [if_pos rfl]
  · show (if bitsKeyOf name = bitsKeyOf name
        then List.replicate (8 * (((bloom_m n p).toNat + 7) / 8)) false
        else st.strings (bitsKeyOf name)).length = _
    rw [if_pos rfl, List.length_replicate]

theorem reinit_overwrites_witness :
    wStateInit.hashes (metaKeyOf "f") = stdMeta "128" "2" "10" "0.01" ∧
    wStateInit.strings (bitsKeyOf "f") ≠ [] ∧
    ((initialize_bloom_filter wFrepr wStateInit "f" 1000 (1/100)).1.hashes (metaKeyOf "f") =
       stdMeta (toString (bloom_m 1000 (1/100))) (toString (bloom_k 1000 (1/100)))
         (toString 1000) (wFrepr (1/100)) ∧
     (initialize_bloom_filter wFrepr wStateInit "f" 1000 (1/100)).1.strings (bitsKeyOf "f") =
       List.replicate (8 * (((bloom_m 1000 (1/100)).toNat + 7) / 8)) false ∧
     ((initialize_bloom_filter wFrepr wStateInit "f" 1000 (1/100)).1.strings
         (bitsKeyOf "f")).length =
       8 * (((bloom_m 1000 (1/100)).toNat + 7) / 8)) :=
  ⟨by decide, by decide,
    reinit_overwrites wFrepr wStateInit "f" 1000 (1/100) "128" "2" "10" "0.01"
      (by decide) (by decide)⟩
